import Mathlib

/-
  Verification of the Brewin v4 tree-walking interpreter
  (src/interpreterv4.py) against its natural-language specification.

  The interpreter keeps two parallel Python lists:
    * `variable_scope_list` : one dict (variable name -> Value) per scope frame,
      index 0 is the oldest (outermost) frame, new frames are appended at the end;
    * `variable_alias_list` : one dict (variable name -> aliased name in the frame
      directly below) per frame, used for pass-by-reference cascades.

  The embedding keeps the same index convention: a `List Frame` whose index 0 is
  the outermost frame, with pushes appending at the end and pops dropping the
  last element.  Python dicts are modelled as association lists with first-match
  lookup and update-in-place insertion (`fset`), which coincides with dict
  behaviour on the duplicate-free frames that arise at run time.  Out-of-range
  list indexing, which would raise in the host, is modelled by `List.getD` with
  the empty frame as default and by `List.set` (a no-op out of range); all code
  paths exercised below stay in range exactly as the Python does.  A raised host
  exception that is not one of the interpreter's own errors is modelled by the
  distinguished error `Err.hostError`.
-/

/-- Error taxonomy of the interpreter: `super().error(ErrorType.NAME_ERROR, ...)`,
`super().error(ErrorType.TYPE_ERROR, ...)`, plus `hostError` standing for an
uncaught host (Python) exception such as `ZeroDivisionError` or a `KeyError`. -/
inductive Err where
  | nameError
  | typeError
  | hostError
deriving DecidableEq

/-- The binary arithmetic and relational operators (the `is_binary_op` set). -/
inductive BinOp where
  | add
  | sub
  | mul
  | div
  | lt
  | le
  | gt
  | ge
deriving DecidableEq

mutual

/-- Expression nodes of the parsed program consumed by `evaluate_expression`.
`efcall` covers nodes carrying a `name` and `args` field: the evaluator treats
the names `inputi` and `inputs` specially before dispatching to `do_func_call`. -/
inductive Expr where
  | elitInt (i : Int)
  | elitStr (s : String)
  | elitBool (b : Bool)
  | enil
  | eobj
  | evar (name : String)
  | ebin (op : BinOp) (op1 op2 : Expr)
  | eneg (op1 : Expr)
  | eand (op1 op2 : Expr)
  | eor (op1 op2 : Expr)
  | enot (op1 : Expr)
  | efcall (name : String) (args : List Expr)
  | elambda (params : List (String × Bool)) (body : List Stmt)

/-- Statement nodes consumed by `run_statement`: assignment, function-call
statements, `return`, `if`/`else` and `while`. -/
inductive Stmt where
  | sassign (name : String) (e : Expr)
  | scall (name : String) (args : List Expr)
  | sreturn (e : Option Expr)
  | sif (cond : Expr) (thens : List Stmt) (elses : Option (List Stmt))
  | swhile (cond : Expr) (body : List Stmt)

end

/-- A user-defined function definition node: its name, its formal parameters
(name plus whether the parameter node is a `refarg`), and its statement list. -/
structure FuncDef where
  name : String
  params : List (String × Bool)
  body : List Stmt

/-- Modelled from the spec: the runtime Value model of module `type_valuev1`
(not part of this repository's sources).  Spec section 3: a tagged union with
Int, Bool, String, Nil, Object (field map), Function (definition reference) and
Lambda (definition plus captured-variable snapshot) variants.  Objects and
lambda snapshots are represented structurally; the claims proved below do not
depend on reference identity of Objects or Lambdas. -/
inductive Val where
  | vint (i : Int)
  | vbool (b : Bool)
  | vstr (s : String)
  | vnil
  | vobj (fields : List (String × Val))
  | vfunc (f : FuncDef)
  | vlambda (params : List (String × Bool)) (body : List Stmt) (cap : List (String × Val))

/-- One scope frame: a Python dict from variable name to Value. -/
abbrev Frame := List (String × Val)

/-- One alias table: a Python dict from variable name to the aliased name in
the frame directly below. -/
abbrev AFrame := List (String × String)

/-- The payload of a `Type.LAMBDA` Value: `[lambda_node, captured_vars]`,
i.e. the lambda's parameters and body together with its captured snapshot. -/
structure LamV where
  params : List (String × Bool)
  body : List Stmt
  cap : Frame

/-- The model of `copy.deepcopy` on a Value: the identity in this value-semantics embedding
(all data is immutable here; the source uses the copy to cut mutable sharing). -/
def deepcopyVal (v : Val) : Val := v

/-- Python dict lookup on a frame (`name in d` / `d[name]`). -/
def flookup : Frame → String → Option Val
  | [], _ => none
  | (k, w) :: rest, n => if k = n then some w else flookup rest n

/-- Python dict assignment on a frame (`d[name] = v`): update in place if the
key is present, otherwise append. -/
def fset : Frame → String → Val → Frame
  | [], n, v => [(n, v)]
  | (k, w) :: rest, n, v => if k = n then (k, v) :: rest else (k, w) :: fset rest n v

/-- Python dict lookup on an alias table. -/
def alookup : AFrame → String → Option String
  | [], _ => none
  | (k, w) :: rest, n => if k = n then some w else alookup rest n

/-- Python dict assignment on an alias table. -/
def aset : AFrame → String → String → AFrame
  | [], n, v => [(n, v)]
  | (k, w) :: rest, n, v => if k = n then (k, v) :: rest else (k, w) :: aset rest n v

/-- Indexing `variable_scope_list[i]` (the empty frame out of range; in-range in all
reachable states). -/
def scGet (scopes : List Frame) (i : Nat) : Frame := scopes.getD i []

/-- Read variable `n` in frame `i`. -/
def lookAt (scopes : List Frame) (i : Nat) (n : String) : Option Val :=
  flookup (scGet scopes i) n

/-- The write `variable_scope_list[i][n] = v`. -/
def setAt (scopes : List Frame) (i : Nat) (n : String) (v : Val) : List Frame :=
  scopes.set i (fset (scGet scopes i) n v)

/-- The lookup of `n` in `variable_alias_list[i]`. -/
def aliasAt (aliases : List AFrame) (i : Nat) (n : String) : Option String :=
  alookup (aliases.getD i []) n

/-- The write `variable_alias_list[i][n] = m`. -/
def aliasSetAt (aliases : List AFrame) (i : Nat) (n m : String) : List AFrame :=
  aliases.set i (aset (aliases.getD i []) n m)

/-- The scan `for i in range(len(scope_list)-1, -1, -1): if name in scope_list[i]`
shared by `validate_var_name` and `do_assignment`: the largest frame index
containing the name, i.e. the innermost binding. -/
def findClosest : List Frame → String → Option Nat
  | [], _ => none
  | fr :: rest, n =>
    match findClosest rest n with
    | some i => some (i + 1)
    | none => if (flookup fr n).isSome then some 0 else none

/-- The write-cascade loop of `do_assignment` (interpreterv4.py lines 239-244):
while the current name has an entry in its frame's alias table, also write the
value into the frame directly below at the aliased name and continue there.
At index 0 the alias table is empty in every reachable state (aliases are only
ever installed in frames pushed by `do_func_call`, whose index is at least 1),
so stopping at index 0 agrees with the source. -/
def cascadeAssign (aliases : List AFrame) (v : Val) : Nat → String → List Frame → List Frame
  | 0, _, scopes => scopes
  | i + 1, n, scopes =>
    match aliasAt aliases (i + 1) n with
    | none => scopes
    | some ref => cascadeAssign aliases v i ref (setAt scopes i ref v)

/-- The body of `do_assignment` for a bare variable name outside any lambda (interpreterv4.py
lines 218-244): find the innermost binding; absent, create the variable in the
innermost frame; present, overwrite it there and run the write-cascade. -/
def doAssignVar (scopes : List Frame) (aliases : List AFrame) (n : String) (v : Val) :
    List Frame :=
  match findClosest scopes n with
  | none => setAt scopes (scopes.length - 1) n v
  | some i => cascadeAssign aliases v i n (setAt scopes i n v)

-- ### Basic lemmas about frames and the scope list

theorem flookup_fset_self (fr : Frame) (n : String) (v : Val) :
    flookup (fset fr n v) n = some v := by
  induction fr with
  | nil => simp [fset, flookup]
  | cons kv rest ih =>
    by_cases h : kv.1 = n
    · simp [fset, h, flookup]
    · simp [fset, h, flookup, ih]

theorem flookup_fset_ne (fr : Frame) (n y : String) (v : Val) (h : y ≠ n) :
    flookup (fset fr n v) y = flookup fr y := by
  have hny : n ≠ y := fun hh => h hh.symm
  induction fr with
  | nil => simp [fset, flookup, hny]
  | cons kv rest ih =>
    by_cases hk : kv.1 = n
    · simp [fset, hk, flookup, hny]
    · simp only [fset, if_neg hk]
      by_cases hy : kv.1 = y
      · simp [flookup, hy]
      · simp [flookup, hy, ih]

theorem scGet_set_self (scopes : List Frame) (i : Nat) (fr : Frame)
    (h : i < scopes.length) : scGet (scopes.set i fr) i = fr := by
  induction scopes generalizing i with
  | nil => simp at h
  | cons a rest ih =>
    cases i with
    | zero => simp [scGet, List.set]
    | succ j =>
      simp only [List.length_cons, Nat.succ_lt_succ_iff] at h
      simpa [scGet, List.set] using ih j h

theorem scGet_set_ne (scopes : List Frame) (i j : Nat) (fr : Frame)
    (h : j ≠ i) : scGet (scopes.set i fr) j = scGet scopes j := by
  induction scopes generalizing i j with
  | nil => simp [scGet, List.set]
  | cons a rest ih =>
    cases i with
    | zero =>
      cases j with
      | zero => exact absurd rfl h
      | succ j2 => simp [scGet, List.set]
    | succ i2 =>
      cases j with
      | zero => simp [scGet, List.set]
      | succ j2 =>
        have : j2 ≠ i2 := fun hh => h (by omega)
        simpa [scGet, List.set] using ih i2 j2 this

theorem lookAt_setAt_self (scopes : List Frame) (i : Nat) (n : String) (v : Val)
    (h : i < scopes.length) : lookAt (setAt scopes i n v) i n = some v := by
  simp [lookAt, setAt, scGet_set_self _ _ _ h, flookup_fset_self]

theorem lookAt_setAt_ne_level (scopes : List Frame) (i j : Nat) (n y : String) (v : Val)
    (h : j ≠ i) : lookAt (setAt scopes i n v) j y = lookAt scopes j y := by
  simp [lookAt, setAt, scGet_set_ne _ _ _ _ h]

theorem lookAt_setAt_ne_name (scopes : List Frame) (i : Nat) (n y : String) (v : Val)
    (h : y ≠ n) : lookAt (setAt scopes i n v) i y = lookAt scopes i y := by
  by_cases hl : i < scopes.length
  · simp [lookAt, setAt, scGet_set_self _ _ _ hl, flookup_fset_ne _ _ _ _ h]
  · have : scopes.set i (fset (scGet scopes i) n v) = scopes := by
      apply List.set_eq_of_length_le
      omega
    simp [lookAt, setAt, this]

theorem setAt_length (scopes : List Frame) (i : Nat) (n : String) (v : Val) :
    (setAt scopes i n v).length = scopes.length := by
  simp [setAt]

theorem findClosest_lt_length (scopes : List Frame) (n : String) (i : Nat)
    (h : findClosest scopes n = some i) : i < scopes.length := by
  induction scopes generalizing i with
  | nil => simp [findClosest] at h
  | cons fr rest ih =>
    simp only [findClosest] at h
    cases hr : findClosest rest n with
    | some j =>
      rw [hr] at h
      cases h
      have := ih j hr
      simp only [List.length_cons]
      omega
    | none =>
      rw [hr] at h
      by_cases hf : (flookup fr n).isSome
      · rw [if_pos hf] at h
        cases h
        simp
      · rw [if_neg hf] at h
        cases h

theorem findClosest_isSome (scopes : List Frame) (n : String) (i : Nat)
    (h : findClosest scopes n = some i) : (lookAt scopes i n).isSome := by
  induction scopes generalizing i with
  | nil => simp [findClosest] at h
  | cons fr rest ih =>
    simp only [findClosest] at h
    cases hr : findClosest rest n with
    | some j =>
      rw [hr] at h
      cases h
      simpa [lookAt, scGet] using ih j hr
    | none =>
      rw [hr] at h
      by_cases hf : (flookup fr n).isSome
      · rw [if_pos hf] at h
        cases h
        simpa [lookAt, scGet] using hf
      · rw [if_neg hf] at h
        cases h

-- ### Alias chains

/-- Consecutive alias-chain reachability over the alias tables: `APath a i n j y`
holds when following alias entries downward from variable `n` in frame `i`
(each entry pointing into the frame directly below) reaches variable `y` in
frame `j`. -/
inductive APath (aliases : List AFrame) : Nat → String → Nat → String → Prop where
  | refl (i : Nat) (n : String) : APath aliases i n i n
  | step (i : Nat) (n m : String) (j : Nat) (y : String)
      (h : aliasAt aliases (i + 1) n = some m)
      (hp : APath aliases i m j y) : APath aliases (i + 1) n j y

/-- A full alias chain: `(i, n)` reaches the root `(r, nr)`, the first
frame/name pair whose alias table has no entry for the current name. -/
def Chain (aliases : List AFrame) (i : Nat) (n : String) (r : Nat) (nr : String) : Prop :=
  APath aliases i n r nr ∧ aliasAt aliases r nr = none

theorem apath_le {aliases : List AFrame} {i j : Nat} {n y : String}
    (h : APath aliases i n j y) : j ≤ i := by
  induction h with
  | refl => exact Nat.le_refl _
  | step i n m j y h hp ih => omega

theorem apath_refl_name {aliases : List AFrame} {i : Nat} {n y : String}
    (h : APath aliases i n i y) : y = n := by
  cases h with
  | refl => rfl
  | step i2 n m j y hh hp =>
    have := apath_le hp
    omega

theorem apath_none_inv {aliases : List AFrame} {i j : Nat} {n y : String}
    (h : APath aliases i n j y) (hn : aliasAt aliases i n = none) :
    j = i ∧ y = n := by
  cases h with
  | refl => exact ⟨rfl, rfl⟩
  | step i2 n m j y hh hp => rw [hh] at hn; cases hn

theorem apath_succ_cases {aliases : List AFrame} {k j : Nat} {n y : String}
    (h : APath aliases (k + 1) n j y) :
    (j = k + 1 ∧ y = n) ∨
      ∃ m, aliasAt aliases (k + 1) n = some m ∧ APath aliases k m j y := by
  cases h with
  | refl => exact Or.inl ⟨rfl, rfl⟩
  | step i2 n m j y hh hp => exact Or.inr ⟨m, hh, hp⟩

theorem chain_zero {aliases : List AFrame} {n : String} {r : Nat} {nr : String}
    (h : Chain aliases 0 n r nr) : r = 0 ∧ nr = n := by
  rcases h with ⟨hp, _⟩
  have hr := apath_le hp
  have : r = 0 := by omega
  subst this
  exact ⟨rfl, apath_refl_name hp⟩

theorem chain_succ_step {aliases : List AFrame} {k : Nat} {n m : String} {r : Nat}
    {nr : String} (h : Chain aliases (k + 1) n r nr)
    (hm : aliasAt aliases (k + 1) n = some m) : Chain aliases k m r nr := by
  rcases h with ⟨hp, hroot⟩
  rcases apath_succ_cases hp with ⟨rfl, rfl⟩ | ⟨m2, hm2, hp2⟩
  · rw [hm] at hroot; cases hroot
  · rw [hm] at hm2
    cases hm2
    exact ⟨hp2, hroot⟩

-- ### The write-cascade theorem (claim C1, general part)

theorem cascadeAssign_preserve_ge (aliases : List AFrame) (v : Val) :
    ∀ (i : Nat) (n : String) (scopes : List Frame) (j : Nat) (y : String), i ≤ j →
      lookAt (cascadeAssign aliases v i n scopes) j y = lookAt scopes j y := by
  intro i
  induction i with
  | zero =>
    intro n scopes j y hij
    rfl
  | succ k ih =>
    intro n scopes j y hij
    simp only [cascadeAssign]
    cases hA : aliasAt aliases (k + 1) n with
    | none => rfl
    | some ref =>
      rw [ih ref (setAt scopes k ref v) j y (by omega)]
      exact lookAt_setAt_ne_level _ _ _ _ _ _ (by omega)

theorem cascadeAssign_preserve_scGet_lt (aliases : List AFrame) (v : Val) :
    ∀ (i : Nat) (n : String) (r : Nat) (nr : String) (scopes : List Frame),
      Chain aliases i n r nr → ∀ j, j < r →
      scGet (cascadeAssign aliases v i n scopes) j = scGet scopes j := by
  intro i
  induction i with
  | zero =>
    intro n r nr scopes hch j hj
    rfl
  | succ k ih =>
    intro n r nr scopes hch j hj
    simp only [cascadeAssign]
    cases hA : aliasAt aliases (k + 1) n with
    | none => rfl
    | some ref =>
      have hch2 := chain_succ_step hch hA
      rw [ih ref r nr (setAt scopes k ref v) hch2 j hj]
      have hrk : r ≤ k := apath_le hch2.1
      simp only [setAt]
      exact scGet_set_ne _ _ _ _ (by omega)

theorem cascadeAssign_chain (aliases : List AFrame) (v : Val) :
    ∀ (i : Nat) (n : String) (r : Nat) (nr : String) (scopes : List Frame),
      Chain aliases i n r nr →
      i < scopes.length →
      lookAt scopes i n = some v →
      ∀ j y, APath aliases i n j y →
        lookAt (cascadeAssign aliases v i n scopes) j y = some v := by
  intro i
  induction i with
  | zero =>
    intro n r nr scopes hch hlen hcur j y hp
    rcases chain_zero hch with ⟨rfl, rfl⟩
    rcases apath_none_inv hp hch.2 with ⟨rfl, rfl⟩
    exact hcur
  | succ k ih =>
    intro n r nr scopes hch hlen hcur j y hp
    simp only [cascadeAssign]
    cases hA : aliasAt aliases (k + 1) n with
    | none =>
      rcases apath_none_inv hp hA with ⟨rfl, rfl⟩
      exact hcur
    | some ref =>
      have hch2 := chain_succ_step hch hA
      rcases apath_succ_cases hp with ⟨rfl, rfl⟩ | ⟨m2, hm2, hp2⟩
      · rw [cascadeAssign_preserve_ge aliases v k ref (setAt scopes k ref v) (k + 1) y
          (by omega)]
        rw [lookAt_setAt_ne_level _ _ _ _ _ _ (by omega)]
        exact hcur
      · rw [hA] at hm2
        cases hm2
        exact ih ref r nr (setAt scopes k ref v) hch2
          (by rw [setAt_length]; omega)
          (lookAt_setAt_self _ _ _ _ (by omega)) j y hp2

-- ### The read-cascade of `evaluate_expression` (interpreterv4.py lines 379-424)

/-- The root-finding loop (lines 396-400): walk upward through the alias chain
until a frame/name pair with no alias entry is reached.  As with the write
cascade, the alias table of frame 0 is empty in every reachable state, so
stopping there agrees with the source. -/
def findRoot (aliases : List AFrame) : Nat → String → Nat × String
  | 0, n => (0, n)
  | i + 1, n =>
    match aliasAt aliases (i + 1) n with
    | none => (i + 1, n)
    | some m => findRoot aliases i m

/-- One level of the read-cascade refresh: the inner loop
`for key, val in self.variable_alias_list[L].items()` overwrites, in the scope
frame, every variable whose alias target is among the names refreshed at the
previous level, and collects the names refreshed at this level. -/
def refreshFrame (v : Val) (refs : List String) : AFrame → Frame → Frame × List String
  | [], fr => (fr, [])
  | (k, m) :: rest, fr =>
    if refs.contains m then
      let p := refreshFrame v refs rest (fset fr k v)
      (p.1, k :: p.2)
    else refreshFrame v refs rest fr

/-- The top-down refresh loop (lines 411-419): starting one frame above the
root, refresh level by level every variable that directly or transitively
aliases the root, until the top of the scope stack.  The fuel is the number of
remaining levels (instantiated with `scopes.length`, an upper bound). -/
def refreshLoop (aliases : List AFrame) (v : Val) :
    Nat → Nat → List String → List Frame → List Frame
  | 0, _, _, scopes => scopes
  | fuel + 1, L, refs, scopes =>
    if L < scopes.length then
      refreshLoop aliases v fuel (L + 1)
        (refreshFrame v refs (aliases.getD L []) (scGet scopes L)).2
        (scopes.set L (refreshFrame v refs (aliases.getD L []) (scGet scopes L)).1)
    else scopes

/-- The variable-read path of `evaluate_expression` for a plain name
(lines 379-424): `validate_var_name` (NAME_ERROR when no frame binds the name);
when the name has an alias entry, find the root of its alias chain, refresh
every alias of the root top-down from the root's current value, re-bind the
read site from the frame below, and return that value; otherwise return the
binding found.  The `try/except` around the root lookup returns the (stale)
value at the read site when the root name is unbound in the root frame; the
uncaught `KeyError` of the final re-binding is modelled as `hostError`. -/
def readVar (scopes : List Frame) (aliases : List AFrame) (name : String) :
    Except Err (Val × List Frame) :=
  match findClosest scopes name with
  | none => .error .nameError
  | some i =>
    match aliasAt aliases i name with
    | none =>
      match lookAt scopes i name with
      | some v => .ok (v, scopes)
      | none => .error .hostError
    | some ref =>
      match lookAt scopes (findRoot aliases i name).1 (findRoot aliases i name).2 with
      | none =>
        match lookAt scopes i name with
        | some sv => .ok (sv, scopes)
        | none => .error .hostError
      | some v =>
        match lookAt (refreshLoop aliases v scopes.length ((findRoot aliases i name).1 + 1)
            [(findRoot aliases i name).2] scopes) (i - 1) ref with
        | none => .error .hostError
        | some w =>
          .ok (w, setAt (refreshLoop aliases v scopes.length ((findRoot aliases i name).1 + 1)
            [(findRoot aliases i name).2] scopes) i name w)

/-- Well-formedness inherited from the host: a Python dict cannot hold two
entries with the same key, so every alias table has duplicate-free keys. -/
def AliasWF (aliases : List AFrame) : Prop :=
  ∀ af ∈ aliases, (af.map Prod.fst).Nodup

theorem aliasWF_getD {aliases : List AFrame} (h : AliasWF aliases) :
    ∀ L, (((aliases.getD L []).map Prod.fst)).Nodup := by
  induction aliases with
  | nil => intro L; cases L <;> simp [List.getD]
  | cons a rest ih =>
    intro L
    cases L with
    | zero => exact h a (by simp)
    | succ L2 =>
      exact ih (fun af haf => h af (List.mem_cons_of_mem _ haf)) L2

theorem mem_of_alookup_eq_some {af : AFrame} {k m : String}
    (h : alookup af k = some m) : (k, m) ∈ af := by
  induction af with
  | nil => simp [alookup] at h
  | cons kv rest ih =>
    by_cases hk : kv.1 = k
    · simp only [alookup, if_pos hk] at h
      cases h
      have hkv : (k, kv.2) = kv := by rw [← hk]
      rw [hkv]
      exact List.mem_cons_self _ _
    · simp only [alookup, if_neg hk] at h
      exact List.mem_cons_of_mem _ (ih h)

theorem alookup_eq_some_of_mem {af : AFrame} {k m : String}
    (hnd : (af.map Prod.fst).Nodup) (hmem : (k, m) ∈ af) : alookup af k = some m := by
  induction af with
  | nil => simp at hmem
  | cons kv rest ih =>
    simp only [List.map_cons, List.nodup_cons] at hnd
    rcases List.mem_cons.mp hmem with rfl | hmem2
    · simp [alookup]
    · have hk : kv.1 ≠ k := by
        intro hh
        exact hnd.1 (by rw [hh]; exact List.mem_map_of_mem Prod.fst hmem2)
      simp only [alookup, if_neg hk]
      exact ih hnd.2 hmem2

theorem findRoot_of_chain {aliases : List AFrame} :
    ∀ {i : Nat} {n : String} {r : Nat} {nr : String}, Chain aliases i n r nr →
      findRoot aliases i n = (r, nr) := by
  intro i
  induction i with
  | zero =>
    intro n r nr h
    rcases chain_zero h with ⟨rfl, rfl⟩
    rfl
  | succ k ih =>
    intro n r nr h
    simp only [findRoot]
    cases hA : aliasAt aliases (k + 1) n with
    | none =>
      rcases apath_none_inv h.1 hA with ⟨rfl, rfl⟩
      rfl
    | some m => exact ih (chain_succ_step h hA)

theorem chain_unfold_gt {aliases : List AFrame} {L r : Nat} {y nr : String}
    (hL : r < L) :
    Chain aliases L y r nr ↔
      ∃ m, aliasAt aliases L y = some m ∧ Chain aliases (L - 1) m r nr := by
  obtain ⟨k, rfl⟩ : ∃ k, L = k + 1 := ⟨L - 1, by omega⟩
  constructor
  · intro h
    rcases apath_succ_cases h.1 with ⟨h1, _⟩ | ⟨m, hm, hp⟩
    · omega
    · exact ⟨m, hm, by simpa using And.intro hp h.2⟩
  · rintro ⟨m, hm, hc⟩
    have hc2 : Chain aliases k m r nr := by simpa using hc
    exact ⟨APath.step k y m r nr hm hc2.1, hc2.2⟩

theorem refreshFrame_fst_preserve (v : Val) (refs : List String) :
    ∀ (es : AFrame) (fr : Frame) (y : String),
      (∀ p ∈ es, p.1 = y → refs.contains p.2 = false) →
      flookup (refreshFrame v refs es fr).1 y = flookup fr y := by
  intro es
  induction es with
  | nil => intro fr y _; rfl
  | cons km rest ih =>
    intro fr y hno
    obtain ⟨k, m⟩ := km
    simp only [refreshFrame]
    by_cases hc : refs.contains m
    · have hky : k ≠ y := by
        intro hh
        have := hno (k, m) (by simp) hh
        rw [hc] at this
        cases this
      simp only [if_pos hc]
      rw [ih (fset fr k v) y (fun p hp hpy => hno p (List.mem_cons_of_mem _ hp) hpy)]
      exact flookup_fset_ne _ _ _ _ (fun hh => hky hh.symm)
    · simp only [if_neg hc]
      exact ih fr y (fun p hp hpy => hno p (List.mem_cons_of_mem _ hp) hpy)

theorem refreshFrame_fst_refreshed (v : Val) (refs : List String) :
    ∀ (es : AFrame) (fr : Frame) (y m : String),
      (es.map Prod.fst).Nodup → (y, m) ∈ es → refs.contains m = true →
      flookup (refreshFrame v refs es fr).1 y = some v := by
  intro es
  induction es with
  | nil => intro fr y m _ hmem; simp at hmem
  | cons km rest ih =>
    intro fr y m hnd hmem hc
    obtain ⟨k, m2⟩ := km
    simp only [List.map_cons, List.nodup_cons] at hnd
    rcases List.mem_cons.mp hmem with heq | hmem2
    · cases heq
      simp only [refreshFrame, if_pos hc]
      rw [refreshFrame_fst_preserve v refs rest (fset fr y v) y ?_]
      · exact flookup_fset_self _ _ _
      · intro p hp hpy
        exact absurd (by rw [← hpy]; exact List.mem_map_of_mem Prod.fst hp) hnd.1
    · have hky : k ≠ y := by
        intro hh
        exact hnd.1 (by rw [hh]; exact List.mem_map_of_mem Prod.fst hmem2)
      simp only [refreshFrame]
      by_cases hc2 : refs.contains m2
      · simp only [if_pos hc2]
        exact ih (fset fr k v) y m hnd.2 hmem2 hc
      · simp only [if_neg hc2]
        exact ih fr y m hnd.2 hmem2 hc

theorem refreshFrame_snd_mem (v : Val) (refs : List String) :
    ∀ (es : AFrame) (fr : Frame) (y : String),
      (y ∈ (refreshFrame v refs es fr).2 ↔
        ∃ m, (y, m) ∈ es ∧ refs.contains m = true) := by
  intro es
  induction es with
  | nil => intro fr y; simp [refreshFrame]
  | cons km rest ih =>
    intro fr y
    obtain ⟨k, m2⟩ := km
    simp only [refreshFrame]
    by_cases hc : refs.contains m2
    · rw [if_pos hc]
      constructor
      · intro hy
        rcases List.mem_cons.mp hy with rfl | hy2
        · exact ⟨m2, List.mem_cons_self _ _, hc⟩
        · rcases (ih (fset fr k v) y).mp hy2 with ⟨m, hm, hmc⟩
          exact ⟨m, List.mem_cons_of_mem _ hm, hmc⟩
      · rintro ⟨m, hm, hmc⟩
        rcases List.mem_cons.mp hm with heq | hm2
        · have hyk : y = k := congrArg Prod.fst heq
          rw [hyk]
          exact List.mem_cons_self _ _
        · exact List.mem_cons_of_mem _ ((ih (fset fr k v) y).mpr ⟨m, hm2, hmc⟩)
    · rw [if_neg hc]
      constructor
      · intro hy
        rcases (ih fr y).mp hy with ⟨m, hm, hmc⟩
        exact ⟨m, List.mem_cons_of_mem _ hm, hmc⟩
      · rintro ⟨m, hm, hmc⟩
        rcases List.mem_cons.mp hm with heq | hm2
        · have hym : m = m2 := congrArg Prod.snd heq
          rw [hym] at hmc
          exact absurd hmc hc
        · exact (ih fr y).mpr ⟨m, hm2, hmc⟩

theorem refreshLoop_length (aliases : List AFrame) (v : Val) :
    ∀ (fuel L : Nat) (refs : List String) (scopes : List Frame),
      (refreshLoop aliases v fuel L refs scopes).length = scopes.length := by
  intro fuel
  induction fuel with
  | zero => intro L refs scopes; rfl
  | succ f ih =>
    intro L refs scopes
    simp only [refreshLoop]
    by_cases hL : L < scopes.length
    · rw [if_pos hL, ih]
      simp
    · rw [if_neg hL]

theorem refreshLoop_preserve_lt (aliases : List AFrame) (v : Val) :
    ∀ (fuel L : Nat) (refs : List String) (scopes : List Frame) (j : Nat), j < L →
      scGet (refreshLoop aliases v fuel L refs scopes) j = scGet scopes j := by
  intro fuel
  induction fuel with
  | zero => intro L refs scopes j _; rfl
  | succ f ih =>
    intro L refs scopes j hj
    simp only [refreshLoop]
    by_cases hL : L < scopes.length
    · rw [if_pos hL, ih _ _ _ j (by omega)]
      exact scGet_set_ne _ _ _ _ (by omega)
    · rw [if_neg hL]

theorem contains_iff_mem {l : List String} {a : String} : l.contains a = true ↔ a ∈ l := by
  simp [List.contains]

theorem refreshLoop_refreshes (aliases : List AFrame) (v : Val) (r : Nat) (nr : String)
    (hwf : AliasWF aliases) :
    ∀ (fuel L : Nat) (refs : List String) (scopes : List Frame),
      r < L →
      scopes.length ≤ L + fuel →
      (∀ y, y ∈ refs ↔ Chain aliases (L - 1) y r nr) →
      (∀ j y, r < j → j < L → Chain aliases j y r nr → lookAt scopes j y = some v) →
      ∀ j y, r < j → j < scopes.length → Chain aliases j y r nr →
        lookAt (refreshLoop aliases v fuel L refs scopes) j y = some v := by
  intro fuel
  induction fuel with
  | zero =>
    intro L refs scopes hrL hlen hrefs hinv j y hrj hjlen hch
    exact hinv j y hrj (by omega) hch
  | succ f ih =>
    intro L refs scopes hrL hlen hrefs hinv j y hrj hjlen hch
    simp only [refreshLoop]
    by_cases hL : L < scopes.length
    · rw [if_pos hL]
      have hnd := aliasWF_getD hwf L
      have hrL1 : r < L + 1 := by omega
      have hlen1 : (scopes.set L
          (refreshFrame v refs (aliases.getD L []) (scGet scopes L)).1).length
          = scopes.length := by simp
      apply ih (L + 1)
        (refreshFrame v refs (aliases.getD L []) (scGet scopes L)).2
        (scopes.set L (refreshFrame v refs (aliases.getD L []) (scGet scopes L)).1)
        hrL1 (by omega) ?_ ?_ j y hrj (by omega) hch
      · -- the refreshed names at level L are exactly the chain members at level L
        intro y2
        rw [refreshFrame_snd_mem]
        simp only [Nat.add_sub_cancel]
        constructor
        · rintro ⟨m, hm, hcm⟩
          have halias : aliasAt aliases L y2 = some m :=
            alookup_eq_some_of_mem hnd hm
          have hm2 : m ∈ refs := contains_iff_mem.mp hcm
          exact (chain_unfold_gt hrL).mpr ⟨m, halias, (hrefs m).mp hm2⟩
        · intro hc
          rcases (chain_unfold_gt hrL).mp hc with ⟨m, halias, hcm⟩
          exact ⟨m, mem_of_alookup_eq_some halias,
            contains_iff_mem.mpr ((hrefs m).mpr hcm)⟩
      · -- levels up to L are now refreshed
        intro j2 y2 hrj2 hj2 hc2
        by_cases hjL : j2 = L
        · subst hjL
          unfold lookAt
          rw [scGet_set_self _ _ _ hL]
          rcases (chain_unfold_gt hrj2).mp hc2 with ⟨m, halias, hcm⟩
          refine refreshFrame_fst_refreshed v refs _ _ _ m hnd
            (mem_of_alookup_eq_some halias) ?_
          exact contains_iff_mem.mpr ((hrefs m).mpr hcm)
        · unfold lookAt
          rw [scGet_set_ne _ _ _ _ hjL]
          exact hinv j2 y2 hrj2 (by omega) hc2
    · rw [if_neg hL]
      exact hinv j y hrj (by omega) hch

theorem readVar_alias_sync (scopes : List Frame) (aliases : List AFrame) (name : String)
    (i r : Nat) (nr : String) (v : Val)
    (hwf : AliasWF aliases)
    (hfind : findClosest scopes name = some i)
    (hch : Chain aliases i name r nr)
    (hri : r < i)
    (hroot : lookAt scopes r nr = some v) :
    ∃ scopes2, readVar scopes aliases name = Except.ok (v, scopes2) ∧
      ∀ j y, Chain aliases j y r nr → j < scopes.length → lookAt scopes2 j y = some v := by
  have hilen : i < scopes.length := findClosest_lt_length _ _ _ hfind
  obtain ⟨ref, href, hch2⟩ := (chain_unfold_gt hri).mp hch
  have hfr : findRoot aliases i name = (r, nr) := findRoot_of_chain hch
  have hgood : ∀ j y, r < j → j < scopes.length → Chain aliases j y r nr →
      lookAt (refreshLoop aliases v scopes.length (r + 1) [nr] scopes) j y = some v := by
    intro j y hrj hjlen hc
    apply refreshLoop_refreshes aliases v r nr hwf scopes.length (r + 1) [nr] scopes
      (by omega) (by omega) ?_ ?_ j y hrj hjlen hc
    · intro y2
      simp only [Nat.add_sub_cancel, List.mem_singleton]
      constructor
      · rintro rfl
        exact ⟨APath.refl _ _, hch.2⟩
      · intro hc2
        exact (apath_refl_name hc2.1).symm
    · intro j2 y2 hrj2 hj2 _
      omega
  have hrootKeep :
      lookAt (refreshLoop aliases v scopes.length (r + 1) [nr] scopes) r nr = some v := by
    unfold lookAt
    rw [refreshLoop_preserve_lt aliases v _ _ _ _ r (by omega)]
    exact hroot
  have hlow :
      lookAt (refreshLoop aliases v scopes.length (r + 1) [nr] scopes) (i - 1) ref
        = some v := by
    by_cases hir : i - 1 = r
    · rw [hir] at hch2 ⊢
      have : nr = ref := apath_refl_name hch2.1
      rw [← this]
      exact hrootKeep
    · have hr1 : r < i - 1 := by
        have := apath_le hch2.1
        omega
      exact hgood (i - 1) ref hr1 (by omega) hch2
  refine ⟨setAt (refreshLoop aliases v scopes.length (r + 1) [nr] scopes) i name v,
    ?_, ?_⟩
  · simp only [readVar, hfind, href, hfr, hroot, hlow]
  · intro j y hc hjlen
    have hrj : r ≤ j := apath_le hc.1
    by_cases hji : j = i
    · subst hji
      by_cases hyn : y = name
      · subst hyn
        refine lookAt_setAt_self _ _ _ _ ?_
        rw [refreshLoop_length]
        omega
      · rw [lookAt_setAt_ne_name _ _ _ _ _ hyn]
        exact hgood j y hri hjlen hc
    · rw [lookAt_setAt_ne_level _ _ _ _ _ _ hji]
      by_cases hjr : j = r
      · subst hjr
        have hynr : nr = y := apath_refl_name hc.1
        rw [← hynr]
        exact hrootKeep
      · exact hgood j y (by omega) hjlen hc

-- ### Lambda capture (interpreterv4.py lines 614-630)

/-- The test `value.type() != Type.OBJ and value.type() != Type.LAMBDA`: only such
values are eligible for lambda capture. -/
def capturable : Val → Bool
  | .vobj _ => false
  | .vlambda _ _ _ => false
  | _ => true

/-- One step of the capture loop: skip formal parameters and non-capturable
values, otherwise deep-copy the binding into the snapshot dict. -/
def captureStep (params : List String) (cap : Frame) : String × Val → Frame
  | (k, v) =>
    if params.contains k then cap
    else if capturable v then fset cap k (deepcopyVal v) else cap

/-- The capture loop of the lambda-literal case of `evaluate_expression`
(lines 620-627): scan every frame from innermost (largest index) to outermost
(index 0) and fold every eligible binding into the snapshot dict.  Because a
dict assignment overwrites, for a name bound in several frames the frame
processed last, i.e. the outermost one, wins. -/
def captureVars (scopes : List Frame) (params : List String) : Frame :=
  scopes.reverse.foldl (fun cap fr => fr.foldl (captureStep params) cap) []

/-- The binding that ends up in the snapshot for name `k`: the value of the
outermost (smallest-index) frame binding `k` to a capturable value. -/
def firstCapturable : List Frame → String → Option Val
  | [], _ => none
  | fr :: rest, k =>
    match flookup fr k with
    | some v => if capturable v then some v else firstCapturable rest k
    | none => firstCapturable rest k

/-- Well-formedness inherited from the host: every scope frame, being a Python
dict, has duplicate-free keys. -/
def ScopesWF (scopes : List Frame) : Prop :=
  ∀ fr ∈ scopes, (fr.map Prod.fst).Nodup

theorem flookup_eq_none_of_not_mem_keys {fr : Frame} {k : String}
    (h : k ∉ fr.map Prod.fst) : flookup fr k = none := by
  induction fr with
  | nil => rfl
  | cons kv rest ih =>
    simp only [List.map_cons, List.mem_cons] at h
    push_neg at h
    have hk : kv.1 ≠ k := fun hh => h.1 hh.symm
    simp only [flookup, if_neg hk]
    exact ih h.2

theorem captureStep_lookup_self (params : List String) (cap : Frame) (k0 : String)
    (v0 : Val) :
    flookup (captureStep params cap (k0, v0)) k0
      = if params.contains k0 = true then flookup cap k0
        else if capturable v0 = true then some v0 else flookup cap k0 := by
  simp only [captureStep]
  by_cases hp : params.contains k0 = true
  · rw [if_pos hp, if_pos hp]
  · rw [if_neg hp, if_neg hp]
    by_cases hcv : capturable v0 = true
    · rw [if_pos hcv, if_pos hcv]
      exact flookup_fset_self _ _ _
    · rw [if_neg hcv, if_neg hcv]

theorem captureStep_lookup_ne (params : List String) (cap : Frame) (k0 k : String)
    (v0 : Val) (hk : k0 ≠ k) :
    flookup (captureStep params cap (k0, v0)) k = flookup cap k := by
  simp only [captureStep]
  by_cases hp : params.contains k0 = true
  · rw [if_pos hp]
  · rw [if_neg hp]
    by_cases hcv : capturable v0 = true
    · rw [if_pos hcv]
      exact flookup_fset_ne _ _ _ _ (fun hh => hk hh.symm)
    · rw [if_neg hcv]

theorem captureFrame_lookup (params : List String) :
    ∀ (fr : Frame) (cap : Frame) (k : String),
      (fr.map Prod.fst).Nodup →
      flookup (fr.foldl (captureStep params) cap) k
        = if params.contains k = true then flookup cap k
          else
            match flookup fr k with
            | some v => if capturable v = true then some v else flookup cap k
            | none => flookup cap k := by
  intro fr
  induction fr with
  | nil =>
    intro cap k _
    by_cases hp : params.contains k = true
    · rw [if_pos hp]
      rfl
    · rw [if_neg hp]
      rfl
  | cons kv rest ih =>
    intro cap k hnd
    obtain ⟨k0, v0⟩ := kv
    simp only [List.map_cons, List.nodup_cons] at hnd
    simp only [List.foldl_cons]
    rw [ih (captureStep params cap (k0, v0)) k hnd.2]
    by_cases hk : k0 = k
    · subst hk
      have hrest : flookup rest k0 = none := flookup_eq_none_of_not_mem_keys hnd.1
      have hhead : flookup ((k0, v0) :: rest) k0 = some v0 := by
        simp [flookup]
      rw [hrest, hhead]
      by_cases hp : params.contains k0 = true
      · rw [if_pos hp, if_pos hp]
        rw [captureStep_lookup_self, if_pos hp]
      · rw [if_neg hp, if_neg hp]
        dsimp only
        rw [captureStep_lookup_self, if_neg hp]
    · rw [captureStep_lookup_ne params cap k0 k v0 hk]
      have hhead : flookup ((k0, v0) :: rest) k = flookup rest k := by
        simp only [flookup, if_neg hk]
      rw [hhead]

theorem captureVars_foldr_lookup (params : List String) :
    ∀ (scopes : List Frame) (k : String), ScopesWF scopes →
      flookup (scopes.foldr (fun fr cap => fr.foldl (captureStep params) cap) []) k
        = if params.contains k = true then none else firstCapturable scopes k := by
  intro scopes
  induction scopes with
  | nil =>
    intro k _
    by_cases hp : params.contains k = true
    · rw [if_pos hp]
      rfl
    · rw [if_neg hp]
      rfl
  | cons fr rest ih =>
    intro k hwf
    simp only [List.foldr_cons]
    rw [captureFrame_lookup params fr _ k (hwf fr (List.mem_cons_self _ _))]
    have hrest := ih k (fun fr2 h2 => hwf fr2 (List.mem_cons_of_mem _ h2))
    by_cases hp : params.contains k = true
    · rw [if_pos hp, if_pos hp]
      rw [hrest, if_pos hp]
    · rw [if_neg hp, if_neg hp]
      simp only [firstCapturable]
      cases hf : flookup fr k with
      | none =>
        dsimp only
        rw [hrest, if_neg hp]
      | some v =>
        dsimp only
        by_cases hcv : capturable v = true
        · rw [if_pos hcv, if_pos hcv]
        · rw [if_neg hcv, if_neg hcv]
          rw [hrest, if_neg hp]

/-- Characterisation of the capture snapshot (shared by several claims): a
formal-parameter name is never present; any other name is bound to the value of
the outermost frame binding it to a non-Object, non-Lambda value. -/
theorem captureVars_lookup (scopes : List Frame) (params : List String) (k : String)
    (hwf : ScopesWF scopes) :
    flookup (captureVars scopes params) k
      = if params.contains k = true then none else firstCapturable scopes k := by
  unfold captureVars
  rw [List.foldl_reverse]
  exact captureVars_foldr_lookup params scopes k hwf

theorem firstCapturable_capturable :
    ∀ {scopes : List Frame} {k : String} {v : Val},
      firstCapturable scopes k = some v → capturable v = true := by
  intro scopes
  induction scopes with
  | nil => intro k v h; simp [firstCapturable] at h
  | cons fr rest ih =>
    intro k v h
    simp only [firstCapturable] at h
    cases hf : flookup fr k with
    | none =>
      rw [hf] at h
      exact ih h
    | some w =>
      rw [hf] at h
      dsimp only at h
      by_cases hcv : capturable w = true
      · rw [if_pos hcv] at h
        cases h
        exact hcv
      · rw [if_neg hcv] at h
        exact ih h

theorem mem_fset {fr : Frame} {k : String} {v : Val} {kv : String × Val}
    (h : kv ∈ fset fr k v) : kv = (k, v) ∨ kv ∈ fr := by
  induction fr with
  | nil => simpa [fset] using h
  | cons kw rest ih =>
    by_cases hk : kw.1 = k
    · simp only [fset, if_pos hk] at h
      rcases List.mem_cons.mp h with rfl | h2
      · left
        rw [← hk]
      · right
        exact List.mem_cons_of_mem _ h2
    · simp only [fset, if_neg hk] at h
      rcases List.mem_cons.mp h with rfl | h2
      · right
        exact List.mem_cons_self _ _
      · rcases ih h2 with h3 | h3
        · exact Or.inl h3
        · exact Or.inr (List.mem_cons_of_mem _ h3)

theorem captureStep_entries {params : List String} {cap : Frame} {k0 : String}
    {v0 : Val} {kv : String × Val}
    (h : kv ∈ captureStep params cap (k0, v0))
    (hcap : ∀ p ∈ cap, capturable p.2 = true) : capturable kv.2 = true := by
  simp only [captureStep] at h
  by_cases hp : params.contains k0 = true
  · rw [if_pos hp] at h
    exact hcap kv h
  · rw [if_neg hp] at h
    by_cases hcv : capturable v0 = true
    · rw [if_pos hcv] at h
      rcases mem_fset h with rfl | h2
      · simpa [deepcopyVal] using hcv
      · exact hcap kv h2
    · rw [if_neg hcv] at h
      exact hcap kv h

theorem captureFrame_entries (params : List String) :
    ∀ (fr : Frame) (cap : Frame),
      (∀ p ∈ cap, capturable p.2 = true) →
      ∀ kv ∈ fr.foldl (captureStep params) cap, capturable kv.2 = true := by
  intro fr
  induction fr with
  | nil => intro cap hcap kv h; exact hcap kv h
  | cons kv0 rest ih =>
    intro cap hcap kv h
    obtain ⟨k0, v0⟩ := kv0
    simp only [List.foldl_cons] at h
    exact ih (captureStep params cap (k0, v0))
      (fun p hp => captureStep_entries hp hcap) kv h

theorem captureVars_entries (scopes : List Frame) (params : List String) :
    ∀ kv ∈ captureVars scopes params, capturable kv.2 = true := by
  unfold captureVars
  rw [List.foldl_reverse]
  induction scopes with
  | nil => intro kv h; simp at h
  | cons fr rest ih =>
    intro kv h
    simp only [List.foldr_cons] at h
    exact captureFrame_entries params fr _ (fun p hp => ih p hp) kv h

-- ### The variable case of `evaluate_expression` (interpreterv4.py lines 295-424)

/-- The captured-variable search performed at the start of the variable case
when evaluating inside a lambda body (lines 298-308): scan the captured dict in
order; an entry whose key is the name returns its value; an entry holding a
Lambda value has its own captured dict searched one level deep before the scan
moves on. -/
def capturedSearch : Frame → String → Option Val
  | [], _ => none
  | (k, w) :: rest, name =>
    if name = k then some w
    else
      match w with
      | .vlambda _ _ cap2 =>
        match flookup cap2 name with
        | some v2 => some v2
        | none => capturedSearch rest name
      | _ => capturedSearch rest name

theorem capturedSearch_eq_none {cap : Frame} {o : String}
    (hv : ∀ kv ∈ cap, capturable kv.2 = true)
    (ho : flookup cap o = none) : capturedSearch cap o = none := by
  induction cap with
  | nil => rfl
  | cons kw rest ih =>
    obtain ⟨k, w⟩ := kw
    have hk : ¬k = o := by
      intro hh
      rw [flookup, if_pos hh] at ho
      cases ho
    have hrest : flookup rest o = none := by
      rw [flookup, if_neg hk] at ho
      exact ho
    have hok : ¬o = k := fun hh => hk hh.symm
    have hcw : capturable w = true := hv (k, w) (List.mem_cons_self _ _)
    have htail := ih (fun kv hkv => hv kv (List.mem_cons_of_mem _ hkv)) hrest
    cases w with
    | vobj fields => cases hcw
    | vlambda p b c => cases hcw
    | vint i => simpa [capturedSearch, hok] using htail
    | vbool b => simpa [capturedSearch, hok] using htail
    | vstr st => simpa [capturedSearch, hok] using htail
    | vnil => simpa [capturedSearch, hok] using htail
    | vfunc f => simpa [capturedSearch, hok] using htail

/-- A computable bound on the length of any prototype chain reachable from a
field map: every entry holding an object contributes one more than the bound of
that object, so each `proto` hop strictly decreases the bound. -/
def fieldsFuel : List (String × Val) → Nat
  | [] => 0
  | (_, Val.vobj fields2) :: rest => 1 + fieldsFuel fields2 + fieldsFuel rest
  | _ :: rest => fieldsFuel rest

/-- The prototype-chain walk of a dotted read (lines 358-369): repeatedly
follow the reserved `proto` field while it holds an Object, returning the first
chained object carrying the field.  The fuel bounds the walk; in this
structural value model proto chains are finite and `fieldsFuel` bounds their
length at every call site. -/
def protoLookup (field : String) : Nat → List (String × Val) → Option Val
  | 0, _ => none
  | fuel + 1, fields =>
    match flookup fields "proto" with
    | some (Val.vobj fields2) =>
      match flookup fields2 field with
      | some v => some v
      | none => protoLookup field fuel fields2
    | _ => none

/-- Python `'.' in name` over the string's characters (the library's own
`String.contains` is defined by well-founded recursion over byte positions and
would not evaluate inside the kernel). -/
def containsChar (s : String) (c : Char) : Bool := s.data.contains c

/-- Python `name.split('.')` for the one-character separator used by the
source, over the string's characters. -/
def splitNameAux : List Char → List Char → List String
  | [], acc => [String.mk acc.reverse]
  | c :: rest, acc =>
    if c = '.' then String.mk acc.reverse :: splitNameAux rest []
    else splitNameAux rest (c :: acc)

/-- The components of a dotted name. -/
def splitName (s : String) : List String := splitNameAux s.data []

/-- The dotted-name read of the variable case (lines 330-375): the source
splits at the dots and uses the first two components; the object is resolved by
`validate_var_name` (NAME_ERROR when absent), must hold an Object (TYPE_ERROR
otherwise), and the field is looked up directly, then through the prototype
chain, with NAME_ERROR when the field is nowhere. -/
def dotRead (scopes : List Frame) (name : String) : Except Err (Val × List Frame) :=
  match findClosest scopes ((splitName name).getD 0 "") with
  | none => .error .nameError
  | some i =>
    match lookAt scopes i ((splitName name).getD 0 "") with
    | some (Val.vobj fields) =>
      match flookup fields ((splitName name).getD 1 "") with
      | some v => .ok (v, scopes)
      | none =>
        match protoLookup ((splitName name).getD 1 "") (1 + fieldsFuel fields) fields with
        | some v => .ok (v, scopes)
        | none => .error .nameError
    | some _ => .error .typeError
    | none => .error .hostError

/-- The function-matching and scope-reading part of the variable case
(lines 310-424), i.e. everything after the captured-variable search: count the
user-defined functions with the given name (the loop keeps the last match);
exactly one match produces a Function value, several are NAME_ERROR; then
dotted reads, then the call-stack read. -/
def evalVarCore (funcs : List FuncDef) (scopes : List Frame) (aliases : List AFrame)
    (name : String) : Except Err (Val × List Frame) :=
  if (funcs.filter (fun f => f.name == name)).length = 1 then
    match (funcs.filter (fun f => f.name == name)).getLast? with
    | some f => .ok (Val.vfunc f, scopes)
    | none => .error .hostError
  else if 1 < (funcs.filter (fun f => f.name == name)).length then
    .error .nameError
  else if containsChar name '.' then dotRead scopes name
  else readVar scopes aliases name

/-- The full variable case of `evaluate_expression` (lines 295-424): the
captured snapshot of the enclosing lambda, when there is one, is searched
before the function table and the call stack. -/
def evalVarRead (funcs : List FuncDef) (lctx : Option LamV) (scopes : List Frame)
    (aliases : List AFrame) (name : String) : Except Err (Val × List Frame) :=
  match lctx with
  | some lv =>
    match capturedSearch lv.cap name with
    | some v => .ok (v, scopes)
    | none => evalVarCore funcs scopes aliases name
  | none => evalVarCore funcs scopes aliases name

-- ### Main lookup, rendering, binary operators, input (lines 27-36, 446-461, 567-601)

/-- The function `get_main_node` (lines 27-36): scan the function list for the first
function whose name is `main` and return it; NAME_ERROR (modelled as `none`)
only when there is none.  Neither the arity of `main` nor the uniqueness of the
name is checked. -/
def getMainNode (funcs : List FuncDef) : Option FuncDef :=
  funcs.find? (fun f => f.name == "main")

/-- Modelled from the spec: `get_printable` lives in module `type_valuev1`,
which is not part of this repository's sources; spec section 6 fixes the
rendering of the printable kinds: Int as decimal digits, Bool as `true` or
`false`, String as raw text, Nil as the nil literal token.  The remaining kinds
have no specified rendering and are mapped to the empty string. -/
def getPrintable : Val → String
  | .vint i => toString i
  | .vbool b => if b then "true" else "false"
  | .vstr s => s
  | .vnil => "nil"
  | _ => ""

/-- The `op_val.type() == BOOL` coercion used by arithmetic: True becomes 1,
False becomes 0, everything else is unchanged (lines 435-438). -/
def toIntOperand : Val → Val
  | .vbool b => .vint (if b then 1 else 0)
  | v => v

/-- The binary-operator case of `evaluate_expression` (lines 427-461) applied
to the two evaluated operand values: `+` on two Strings concatenates; otherwise
Bools are coerced to Ints, non-Int operands are TYPE_ERROR, and the operator is
applied; `//` is Python floor division and is unguarded, so a zero divisor
raises the host's ZeroDivisionError (modelled as `hostError`). -/
def evalBinop (op : BinOp) (v1 v2 : Val) : Except Err Val :=
  match op, v1, v2 with
  | .add, .vstr s1, .vstr s2 => .ok (Val.vstr (s1 ++ s2))
  | _, _, _ =>
    match toIntOperand v1, toIntOperand v2 with
    | .vint a, .vint b =>
      match op with
      | .add => .ok (.vint (a + b))
      | .sub => .ok (.vint (a - b))
      | .mul => .ok (.vint (a * b))
      | .div => if b = 0 then .error .hostError else .ok (.vint (Int.fdiv a b))
      | .lt => .ok (.vbool (decide (a < b)))
      | .le => .ok (.vbool (decide (a ≤ b)))
      | .gt => .ok (.vbool (decide (b < a)))
      | .ge => .ok (.vbool (decide (b ≤ a)))
    | _, _ => .error .typeError

/-- Python `str.isdigit` on the tokens the input source yields: nonempty and
all characters decimal digits. -/
def isAllDigits (s : String) : Bool :=
  !s.data.isEmpty && s.data.all (fun c => c.isDigit)

/-- Python `int(...)` on an all-digits token: its decimal value. -/
def digitsToNat (s : String) : Nat :=
  s.data.foldl (fun n c => n * 10 + (c.toNat - 48)) 0

-- ### The statement executor and function-call machinery

/-- The interpreter state: the two parallel stacks plus the external input
source (remaining tokens) and output sink (emitted lines). -/
structure St where
  scopes : List Frame
  aliases : List AFrame
  inputs : List String
  outputs : List String

/-- Entering an if branch, a while iteration or a function call pushes one
fresh frame on both stacks (`variable_scope_list.append({})` together with
`variable_alias_list.append({})`). -/
def pushBoth (st : St) : St :=
  { st with scopes := st.scopes ++ [[]], aliases := st.aliases ++ [[]] }

/-- The pop performed by `run_if_statements` (line 50) and by the while loop
(lines 140 and 145): only `variable_scope_list.pop()`. -/
def popScopeOnly (st : St) : St :=
  { st with scopes := st.scopes.dropLast }

/-- The pop performed by `run_func` (lines 65-66): both stacks. -/
def popBoth (st : St) : St :=
  { st with scopes := st.scopes.dropLast, aliases := st.aliases.dropLast }

/-- The condition coercion shared by `if` and `while` (lines 85-92, 112-119,
151-157): an Int condition becomes Bool by nonzero-is-true, a Bool stands, and
anything else is TYPE_ERROR. -/
def coerceCond : Val → Except Err Bool
  | .vint i => .ok (decide (i ≠ 0))
  | .vbool b => .ok b
  | _ => .error .typeError

/-- The `op_val.type() == INT` coercion used by the logical operators
(lines 480-483, 500-501): a nonzero Int becomes True. -/
def toBoolOperand : Val → Val
  | .vint i => .vbool (decide (i ≠ 0))
  | v => v

/-- The assigned value must be Object or Nil when the target field is `proto`
(lines 185-189). -/
def isObjOrNil : Val → Bool
  | .vobj _ => true
  | .vnil => true
  | _ => false

/-- The body of `do_assignment` after the source expression has been evaluated, outside any
lambda (lines 177-244): dotted targets validate the `proto` rule, resolve the
object through `validate_var_name` (NAME_ERROR when absent), require an Object
(TYPE_ERROR otherwise) and write straight into its field map, bypassing the
alias cascade; bare targets go through `doAssignVar`. -/
def doAssignCore (st : St) (name : String) (v : Val) : Except Err St :=
  if containsChar name '.' then
    if ((splitName name).getD 1 "") = "proto" ∧ isObjOrNil v = false then
      .error .typeError
    else
      match findClosest st.scopes ((splitName name).getD 0 "") with
      | none => .error .nameError
      | some i =>
        match lookAt st.scopes i ((splitName name).getD 0 "") with
        | some (Val.vobj fields) =>
          let newObj := Val.vobj (fset fields ((splitName name).getD 1 "") v)
          .ok { st with scopes := setAt st.scopes i ((splitName name).getD 0 "") newObj }
        | some _ => .error .typeError
        | none => .error .hostError
  else .ok { st with scopes := doAssignVar st.scopes st.aliases name v }

/-- The read-and-parse tail of the `inputi` case (lines 579-585):
`super().get_input()` yields the next token (exhaustion is a host error), a
non-digit token is TYPE_ERROR, an all-digits token parses to an Int. -/
def inputiRead (st : St) : Except Err (Val × St) :=
  match st.inputs with
  | [] => .error .hostError
  | tok :: rest =>
    if isAllDigits tok then
      .ok (Val.vint (Int.ofNat (digitsToNat tok)), { st with inputs := rest })
    else .error .typeError

/-- The tail of the `inputs` case (lines 600-601): the raw token as a String. -/
def inputsRead (st : St) : Except Err (Val × St) :=
  match st.inputs with
  | [] => .error .hostError
  | tok :: rest => .ok (Val.vstr tok, { st with inputs := rest })

/-- The `inputi` pseudo-call case of `evaluate_expression` (lines 567-585):
more than one argument is NAME_ERROR (before anything is evaluated); a single
argument is evaluated and its rendering emitted to the output sink as the
prompt; then the next token is read and parsed. -/
def inputiCase (evalE : St → Expr → Except Err (Val × St)) (st : St)
    (args : List Expr) : Except Err (Val × St) :=
  match args with
  | [] => inputiRead st
  | [a] =>
    match evalE st a with
    | .error e => .error e
    | .ok (v, st1) => inputiRead { st1 with outputs := st1.outputs ++ [getPrintable v] }
  | _ => .error .nameError

/-- The `inputs` pseudo-call case (lines 588-601), same shape as `inputi`. -/
def inputsCase (evalE : St → Expr → Except Err (Val × St)) (st : St)
    (args : List Expr) : Except Err (Val × St) :=
  match args with
  | [] => inputsRead st
  | [a] =>
    match evalE st a with
    | .error e => .error e
    | .ok (v, st1) => inputsRead { st1 with outputs := st1.outputs ++ [getPrintable v] }
  | _ => .error .nameError

/-- The `print` branch of `do_func_call` (lines 665-671): evaluate the
arguments in order, appending each rendering to one accumulated string, then
emit that single line and produce the Nil value. -/
def printLoop (evalE : St → Expr → Except Err (Val × St)) :
    St → List Expr → String → Except Err (Val × St)
  | st, [], acc => .ok (Val.vnil, { st with outputs := st.outputs ++ [acc] })
  | st, a :: rest, acc =>
    match evalE st a with
    | .error e => .error e
    | .ok (v, st1) => printLoop evalE st1 rest (acc ++ getPrintable v)

/-- The statement loop shared by `run_func`, `run_if_statements` and the while
body: run each statement in order, stopping at the first that yields a return
value. -/
def stmtLoop (runStmt : St → Stmt → Except Err (Option Val × St)) :
    St → List Stmt → Except Err (Option Val × St)
  | st, [] => .ok (none, st)
  | st, s :: rest =>
    match runStmt st s with
    | .error e => .error e
    | .ok (some v, st1) => .ok (some v, st1)
    | .ok (none, st1) => stmtLoop runStmt st1 rest

/-- The name-and-arity scan of `do_func_call` (lines 674-679): the loop keeps
the last function whose name and parameter count both match. -/
def lastMatch (funcs : List FuncDef) (name : String) (argc : Nat) : Option FuncDef :=
  funcs.foldl
    (fun acc f => if f.name == name && f.params.length == argc then some f else acc)
    none

/-- The re-resolution by name of a Function value held in a variable
(lines 772-784): every function with the same name is visited; a visited
definition with the wrong arity is TYPE_ERROR immediately, one with the right
arity becomes the selection. -/
def resolveByName (fname : String) (argc : Nat) :
    List FuncDef → Option FuncDef → Except Err (Option FuncDef)
  | [], acc => .ok acc
  | f :: rest, acc =>
    if f.name == fname then
      if f.params.length ≠ argc then .error .typeError
      else resolveByName fname argc rest (some f)
    else resolveByName fname argc rest acc

/-- The lookup `args_val_list[i].get('name')`: the variable name of a by-reference
argument.  A non-variable argument node has no name field (the host stores
None there); this is modelled as the empty string, which no program variable
uses. -/
def argNodeName : Expr → String
  | .evar n => n
  | _ => ""

/-- The argument-binding loop of `do_func_call` (lines 829-846): the loop runs
over the call arguments; each argument expression is evaluated with the
callee's fresh frame already pushed, the value is bound into the callee frame
at index `idx` (Lambdas and Objects are deep-copied unless the parameter is
by-reference), and a by-reference parameter records `paramName -> argName` in
the callee's alias table at the same index.  Fewer parameters than call
arguments would raise IndexError in the host. -/
def bindArgs (evalE : St → Expr → Except Err (Val × St)) (idx : Nat) :
    St → List (String × Bool) → List Expr → Except Err St
  | st, _, [] => .ok st
  | _, [], _ :: _ => .error .hostError
  | st, (pname, isRef) :: ps, a :: rest =>
    match evalE st a with
    | .error e => .error e
    | .ok (v, st1) =>
      bindArgs evalE idx
        { st1 with
          scopes := setAt st1.scopes idx pname
            (if isRef then v
             else
               match v with
               | .vlambda p b c => deepcopyVal (.vlambda p b c)
               | .vobj fs => deepcopyVal (.vobj fs)
               | w => w),
          aliases :=
            if isRef then aliasSetAt st1.aliases idx pname (argNodeName a)
            else st1.aliases }
        ps rest

/-- The mutually recursive procedures of the interpreter, stratified by fuel:
every nested procedure call of the source consumes one fuel level. -/
structure Interp where
  evalE : St → Expr → Except Err (Val × St)
  runStmt : St → Stmt → Except Err (Option Val × St)
  runBody : St → List Stmt → Except Err (Option Val × St)
  runFunc : St → List Stmt → Except Err (Val × St)
  runIf : St → List Stmt → Except Err (Option Val × St)
  doCall : St → String → List Expr → Except Err (Val × St)
  whileGo : St → Expr → List Stmt → Except Err (Option Val × St)

/-- Fuel exhaustion: every procedure reports a host error.  The claims below are
evaluated with ample fuel, so this level is never reached. -/
def interpBot : Interp where
  evalE := fun _ _ => .error .hostError
  runStmt := fun _ _ => .error .hostError
  runBody := fun _ _ => .error .hostError
  runFunc := fun _ _ => .error .hostError
  runIf := fun _ _ => .error .hostError
  doCall := fun _ _ _ => .error .hostError
  whileGo := fun _ _ _ => .error .hostError

/-- The `Run function` tail of `do_func_call` (lines 820-853): push a fresh
frame and alias table on both stacks, compute the callee frame index, bind the
arguments, and run the body through `run_func` (which pops both stacks). -/
def callFunc (evalE : St → Expr → Except Err (Val × St))
    (runFunc : St → List Stmt → Except Err (Val × St))
    (st : St) (fe : FuncDef) (args : List Expr) : Except Err (Val × St) :=
  match bindArgs evalE ((pushBoth st).scopes.length - 1) (pushBoth st) fe.params args with
  | .error e => .error e
  | .ok st2 => runFunc st2 fe.body

/-- One fuel level of the interpreter.  Each procedure is the direct
transcription of its source counterpart; every nested procedure call is taken
from the previous fuel level.  This executor models execution outside lambda
bodies: the `lambda_node` parameter of the source is None on every path
transcribed here, and invoking a Lambda value (a path no claim exercises) is
out of the modelled fragment. -/
def interpStep (funcs : List FuncDef) (prev : Interp) : Interp where
  evalE := fun st e =>
    match e with
    | .eobj => .ok (Val.vobj [], st)
    | .elitInt i => .ok (Val.vint i, st)
    | .elitStr s => .ok (Val.vstr s, st)
    | .elitBool b => .ok (Val.vbool b, st)
    | .enil => .ok (Val.vnil, st)
    | .evar n =>
      match evalVarRead funcs none st.scopes st.aliases n with
      | .error er => .error er
      | .ok (v, sc) => .ok (v, { st with scopes := sc })
    | .ebin op e1 e2 =>
      match prev.evalE st e1 with
      | .error er => .error er
      | .ok (v1, st1) =>
        match prev.evalE st1 e2 with
        | .error er => .error er
        | .ok (v2, st2) =>
          match evalBinop op v1 v2 with
          | .error er => .error er
          | .ok v => .ok (v, st2)
    | .eneg e1 =>
      match prev.evalE st e1 with
      | .error er => .error er
      | .ok (v1, st1) =>
        match v1 with
        | .vint a => .ok (Val.vint (a * (-1)), st1)
        | _ => .error .typeError
    | .eand e1 e2 =>
      match prev.evalE st e1 with
      | .error er => .error er
      | .ok (v1, st1) =>
        match prev.evalE st1 e2 with
        | .error er => .error er
        | .ok (v2, st2) =>
          match toBoolOperand v1, toBoolOperand v2 with
          | .vbool b1, .vbool b2 => .ok (Val.vbool (b1 && b2), st2)
          | _, _ => .error .typeError
    | .eor e1 e2 =>
      match prev.evalE st e1 with
      | .error er => .error er
      | .ok (v1, st1) =>
        match prev.evalE st1 e2 with
        | .error er => .error er
        | .ok (v2, st2) =>
          match toBoolOperand v1, toBoolOperand v2 with
          | .vbool b1, .vbool b2 => .ok (Val.vbool (b1 || b2), st2)
          | _, _ => .error .typeError
    | .enot e1 =>
      match prev.evalE st e1 with
      | .error er => .error er
      | .ok (v1, st1) =>
        match toBoolOperand v1 with
        | .vbool b => .ok (Val.vbool (!b), st1)
        | _ => .error .typeError
    | .efcall n args =>
      if n = "inputi" then inputiCase prev.evalE st args
      else if n = "inputs" then inputsCase prev.evalE st args
      else prev.doCall st n args
    | .elambda ps body =>
      .ok (Val.vlambda ps body (captureVars st.scopes (ps.map Prod.fst)), st)
  runStmt := fun st s =>
    match s with
    | .sassign n e =>
      match prev.evalE st e with
      | .error er => .error er
      | .ok (v, st1) =>
        match doAssignCore st1 n v with
        | .error er => .error er
        | .ok st2 => .ok (none, st2)
    | .scall n args =>
      match prev.doCall st n args with
      | .error er => .error er
      | .ok (_, st1) => .ok (none, st1)
    | .sreturn oe =>
      match oe with
      | none => .ok (some Val.vnil, st)
      | some e =>
        match prev.evalE st e with
        | .error er => .error er
        | .ok (v, st1) => .ok (some (deepcopyVal v), st1)
    | .sif c thens elses =>
      match prev.evalE st c with
      | .error er => .error er
      | .ok (cv, st1) =>
        match coerceCond cv with
        | .error er => .error er
        | .ok b =>
          if b then prev.runIf (pushBoth st1) thens
          else
            match elses with
            | some els => prev.runIf (pushBoth st1) els
            | none => .ok (none, st1)
    | .swhile c body =>
      match prev.evalE st c with
      | .error er => .error er
      | .ok (cv, st1) =>
        match coerceCond cv with
        | .error er => .error er
        | .ok b =>
          if b then prev.whileGo st1 c body else .ok (none, st1)
  runBody := fun st body => stmtLoop prev.runStmt st body
  runFunc := fun st body =>
    match stmtLoop prev.runStmt st body with
    | .error e => .error e
    | .ok (r, st1) => .ok (r.getD Val.vnil, popBoth st1)
  runIf := fun st body =>
    match stmtLoop prev.runStmt st body with
    | .error e => .error e
    | .ok (r, st1) => .ok (r, popScopeOnly st1)
  doCall := fun st name args =>
    if name = "print" then printLoop prev.evalE st args ""
    else
      match lastMatch funcs name args.length with
      | some fe => callFunc prev.evalE prev.runFunc st fe args
      | none =>
        match findClosest st.scopes name with
        | none => .error .nameError
        | some i =>
          match lookAt st.scopes i name with
          | some (Val.vfunc fdef) =>
            match resolveByName fdef.name args.length funcs none with
            | .error e => .error e
            | .ok (some fe) => callFunc prev.evalE prev.runFunc st fe args
            | .ok none => .error .nameError
          | some (Val.vlambda _ _ _) => .error .hostError
          | some _ => .error .typeError
          | none => .error .hostError
  whileGo := fun st c body =>
    match stmtLoop prev.runStmt (pushBoth st) body with
    | .error e => .error e
    | .ok (some v, st1) => .ok (some v, popScopeOnly st1)
    | .ok (none, st1) =>
      match prev.evalE (popScopeOnly st1) c with
      | .error er => .error er
      | .ok (cv, st2) =>
        match coerceCond cv with
        | .error er => .error er
        | .ok b => if b then prev.whileGo st2 c body else .ok (none, st2)

/-- The fuel-stratified interpreter over the program's function list. -/
def interp (funcs : List FuncDef) : Nat → Interp
  | 0 => interpBot
  | n + 1 => interpStep funcs (interp funcs n)

/-- The entry point `run` (lines 17-24): find the main node, initialise both stacks with one
empty frame each, and run main's body through `run_func`. -/
def runProgram (fuel : Nat) (funcs : List FuncDef) (inputs : List String) :
    Except Err (Val × St) :=
  match getMainNode funcs with
  | none => .error .nameError
  | some m =>
    (interp funcs fuel).runFunc
      { scopes := [[]], aliases := [[]], inputs := inputs, outputs := [] } m.body

/-- Plain left-to-right evaluation of an expression list, threading the state:
the reference point against which the print loop is compared. -/
def evalSeq (evalE : St → Expr → Except Err (Val × St)) :
    St → List Expr → Except Err (List Val × St)
  | st, [] => .ok ([], st)
  | st, a :: rest =>
    match evalE st a with
    | .error e => .error e
    | .ok (v, st1) =>
      match evalSeq evalE st1 rest with
      | .error e => .error e
      | .ok (vs, st2) => .ok (v :: vs, st2)

/-- Concatenation of rendered values with no separator. -/
def concatAll : List String → String
  | [] => ""
  | s :: rest => s ++ concatAll rest

-- ### Claim theorems

theorem printLoop_evalSeq (evalE : St → Expr → Except Err (Val × St)) :
    ∀ (args : List Expr) (st : St) (acc : String),
      printLoop evalE st args acc
        = match evalSeq evalE st args with
          | .error e => .error e
          | .ok (vs, st2) =>
            .ok (Val.vnil,
              { st2 with
                outputs := st2.outputs ++ [acc ++ concatAll (vs.map getPrintable)] }) := by
  intro args
  induction args with
  | nil =>
    intro st acc
    simp [printLoop, evalSeq, concatAll]
  | cons a rest ih =>
    intro st acc
    simp only [printLoop, evalSeq]
    cases evalE st a with
    | error e => rfl
    | ok p =>
      obtain ⟨v, st1⟩ := p
      dsimp only
      rw [ih st1 (acc ++ getPrintable v)]
      cases evalSeq evalE st1 rest with
      | error e => rfl
      | ok q =>
        obtain ⟨vs, st2⟩ := q
        dsimp only
        rw [List.map_cons]
        simp only [concatAll, String.append_assoc]

/-- C10: a `print` call (any number of arguments, including zero) evaluates
its arguments left to right, threading the state exactly as plain sequential
evaluation does; it sends exactly one line to the output sink, consisting of
the rendered values concatenated with no separator, and it evaluates to the
Nil value. -/
theorem c10_print_spec (funcs : List FuncDef) (n : Nat) (st : St) (args : List Expr) :
    (interp funcs (n + 1)).doCall st "print" args
      = match evalSeq ((interp funcs n).evalE) st args with
        | .error e => .error e
        | .ok (vs, st2) =>
          .ok (Val.vnil,
            { st2 with outputs := st2.outputs ++ [concatAll (vs.map getPrintable)] }) := by
  have h1 : (interp funcs (n + 1)).doCall st "print" args
      = printLoop ((interp funcs n).evalE) st args "" := rfl
  rw [h1, printLoop_evalSeq]
  cases evalSeq ((interp funcs n).evalE) st args with
  | error e => rfl
  | ok q =>
    obtain ⟨vs, st2⟩ := q
    dsimp only
    rw [String.empty_append]

/-- C8: a division whose operands coerce (Bool to Int: True is 1, False is 0)
to Ints with divisor 0 is unguarded: it neither fires NAME_ERROR or TYPE_ERROR
nor returns a Value, but raises the host's ZeroDivisionError (modelled as
`hostError`).  The four operand shapes below are exactly those that coerce to
Ints with divisor 0. -/
theorem c8_div_by_zero_unguarded (a : Int) (b : Bool) :
    evalBinop BinOp.div (Val.vint a) (Val.vint 0) = .error Err.hostError
    ∧ evalBinop BinOp.div (Val.vint a) (Val.vbool false) = .error Err.hostError
    ∧ evalBinop BinOp.div (Val.vbool b) (Val.vint 0) = .error Err.hostError
    ∧ evalBinop BinOp.div (Val.vbool b) (Val.vbool false) = .error Err.hostError
    ∧ Err.hostError ≠ Err.nameError
    ∧ Err.hostError ≠ Err.typeError
    ∧ ∀ w : Val, (Except.error Err.hostError : Except Err Val) ≠ Except.ok w := by
  refine ⟨?_, ?_, ?_, ?_, ?_, ?_, ?_⟩
  · simp [evalBinop, toIntOperand]
  · simp [evalBinop, toIntOperand]
  · cases b <;> simp [evalBinop, toIntOperand]
  · cases b <;> simp [evalBinop, toIntOperand]
  · intro h; cases h
  · intro h; cases h
  · intro w h; cases h

/-- C9: evaluating a bare variable name that matches exactly one user-defined
function definition (by name, ignoring arity) yields the Function value for
that definition even when a call-stack variable with the same name exists; a
name matching several definitions fails with NAME_ERROR even then: the
function-definition lookup precedes the call-stack variable lookup. -/
theorem c9_function_lookup_precedence (funcs : List FuncDef) (scopes : List Frame)
    (aliases : List AFrame) (name : String) (f : FuncDef) (j : Nat)
    (_hvar : findClosest scopes name = some j) :
    ((funcs.filter (fun g => g.name == name)) = [f] →
      evalVarRead funcs none scopes aliases name = .ok (Val.vfunc f, scopes))
    ∧ (2 ≤ (funcs.filter (fun g => g.name == name)).length →
      evalVarRead funcs none scopes aliases name = .error Err.nameError) := by
  constructor
  · intro hm
    simp only [evalVarRead]
    unfold evalVarCore
    rw [hm]
    rfl
  · intro hm
    simp only [evalVarRead]
    unfold evalVarCore
    rw [if_neg (by omega), if_pos (by omega)]

/-- Witness for C9 at a concrete input: the single function `g` is produced as
a Function value although `g` is also a variable bound to `3` in the scope
stack. -/
theorem c9_function_lookup_precedence_witness :
    evalVarRead [⟨"g", [], []⟩] none [[("g", Val.vint 3)]] [[]] "g"
      = .ok (Val.vfunc ⟨"g", [], []⟩, [[("g", Val.vint 3)]]) :=
  (c9_function_lookup_precedence [⟨"g", [], []⟩] [[("g", Val.vint 3)]] [[]] "g"
    ⟨"g", [], []⟩ 0 rfl).1 rfl

/-- C4 (code bug): executing `if (true) { y = 1; }` from the initial state
pushes a scope frame and an alias table together but pops only the scope
frame on leaving the branch: afterwards the scope stack holds 1 frame while
the alias stack holds 2 tables, so the two stacks do not have equal length
after every statement.  `run_func` pops both stacks (lines 65-66), while
`run_if_statements` (line 50) and the while loop (lines 140 and 145) pop only
`variable_scope_list`. -/
theorem c4_if_branch_alias_leak :
    ∃ st2, (interp [] 9).runStmt ⟨[[]], [[]], [], []⟩
        (Stmt.sif (Expr.elitBool true) [Stmt.sassign "y" (Expr.elitInt 1)] none)
        = .ok (none, st2)
      ∧ st2.scopes.length + 1 = st2.aliases.length :=
  ⟨⟨[[]], [[], []], [], []⟩, by rfl, by rfl⟩

/-- C5 counterexample: a parsed program whose only `main` takes one parameter
does not fail with NAME_ERROR before any statement executes: `get_main_node`
returns the function (it checks only the name, never the arity or uniqueness)
and the run completes normally. -/
theorem c5_main_arity_counterexample :
    getMainNode [⟨"main", [("x", false)], []⟩] = some ⟨"main", [("x", false)], []⟩
    ∧ runProgram 5 [⟨"main", [("x", false)], []⟩] [] = .ok (Val.vnil, ⟨[], [], [], []⟩)
    ∧ runProgram 5 [⟨"main", [("x", false)], []⟩] [] ≠ .error Err.nameError := by
  refine ⟨rfl, by rfl, ?_⟩
  intro h
  have h2 := (show runProgram 5 [⟨"main", [("x", false)], []⟩] []
      = .ok (Val.vnil, ⟨[], [], [], []⟩) by rfl).symm.trans h
  exact Except.noConfusion h2

/-- C5 (amended): the run fails with NAME_ERROR before any statement executes
exactly when no function at all is named `main`; otherwise the first function
named `main` in the list is selected and run, regardless of its parameter
count and of how many functions share the name. -/
theorem c5_main_lookup_amended (funcs : List FuncDef) :
    (getMainNode funcs = none ↔ ∀ f ∈ funcs, f.name ≠ "main")
    ∧ (∀ f, getMainNode funcs = some f → f.name = "main" ∧ f ∈ funcs)
    ∧ (∀ f rest, funcs = f :: rest → f.name = "main" → getMainNode funcs = some f)
    ∧ (∀ fuel inputs, getMainNode funcs = none →
        runProgram fuel funcs inputs = .error Err.nameError) := by
  refine ⟨?_, ?_, ?_, ?_⟩
  · unfold getMainNode
    rw [List.find?_eq_none]
    constructor
    · intro h f hf
      have := h f hf
      simpa using this
    · intro h f hf
      simpa using h f hf
  · intro f h
    have h1 := List.find?_some h
    have h2 := List.mem_of_find?_eq_some h
    refine ⟨?_, h2⟩
    simpa using h1
  · intro f rest hfr hname
    rw [hfr]
    unfold getMainNode
    exact List.find?_cons_of_pos _ (by simpa using hname)
  · intro fuel inputs h
    unfold runProgram
    rw [h]

/-- Witness for C5 (amended): with two `main` definitions the first one (here
the zero-parameter one) is the one selected. -/
theorem c5_main_lookup_amended_witness :
    getMainNode [⟨"main", [], []⟩, ⟨"main", [("z", false)], []⟩]
      = some ⟨"main", [], []⟩ :=
  (c5_main_lookup_amended [⟨"main", [], []⟩, ⟨"main", [("z", false)], []⟩]).2.2.1
    ⟨"main", [], []⟩ [⟨"main", [("z", false)], []⟩] rfl rfl

/-- C3 counterexample: with frames `[{x: 1}, {x: 2}]` (index 1 innermost) and
no formal parameters, the currently-visible binding of `x` is `2` (index 1,
found by the dynamic-scoping lookup), yet the snapshot captures `1`: the
innermost-to-outermost scan overwrites earlier snapshot entries, so the
outermost binding wins, not the currently-visible one. -/
theorem c3_capture_shadowing_counterexample :
    findClosest [[("x", Val.vint 1)], [("x", Val.vint 2)]] "x" = some 1
    ∧ lookAt [[("x", Val.vint 1)], [("x", Val.vint 2)]] 1 "x" = some (Val.vint 2)
    ∧ flookup (captureVars [[("x", Val.vint 1)], [("x", Val.vint 2)]] []) "x"
        = some (Val.vint 1)
    ∧ Val.vint 1 ≠ Val.vint 2 :=
  ⟨rfl, rfl, rfl, by simp⟩

/-- C3 (amended): the capture snapshot contains exactly those names that are
not formal parameters and are bound in some active frame to a value that is
neither Object nor Lambda; the captured value for such a name is that of the
OUTERMOST frame with such a binding (the innermost-to-outermost scan
overwrites, so the outermost wins, not the currently-visible binding); every
captured value is neither Object nor Lambda; each captured value is a deep
copy (the identity in this value model). -/
theorem c3_capture_snapshot_amended (scopes : List Frame) (params : List String)
    (hwf : ScopesWF scopes) :
    (∀ k, params.contains k = true → flookup (captureVars scopes params) k = none)
    ∧ (∀ k, params.contains k = false →
        flookup (captureVars scopes params) k = firstCapturable scopes k)
    ∧ (∀ kv ∈ captureVars scopes params, capturable kv.2 = true) := by
  refine ⟨?_, ?_, captureVars_entries scopes params⟩
  · intro k hk
    rw [captureVars_lookup scopes params k hwf, if_pos hk]
  · intro k hk
    rw [captureVars_lookup scopes params k hwf,
      if_neg (fun hh => Bool.noConfusion (hk.symm.trans hh))]

/-- Witness for C3 (amended) at a concrete input: a parameter is skipped, a
shadowed name receives its outermost capturable binding. -/
theorem c3_capture_snapshot_amended_witness :
    flookup (captureVars [[("x", Val.vint 1), ("p", Val.vint 5)], [("x", Val.vint 2)]]
        ["p"]) "p" = none
    ∧ flookup (captureVars [[("x", Val.vint 1), ("p", Val.vint 5)], [("x", Val.vint 2)]]
        ["p"]) "x"
      = firstCapturable [[("x", Val.vint 1), ("p", Val.vint 5)], [("x", Val.vint 2)]] "x" := by
  have h := c3_capture_snapshot_amended
    [[("x", Val.vint 1), ("p", Val.vint 5)], [("x", Val.vint 2)]] ["p"] ?_
  · exact ⟨h.1 "p" rfl, h.2.1 "x" rfl⟩
  · intro fr hfr
    rcases List.mem_cons.mp hfr with rfl | h2
    · simp
    · rcases List.mem_cons.mp h2 with rfl | h3
      · simp
      · simp at h3

set_option maxRecDepth 8000 in
/-- C1: for every assignment to a bare variable name whose binding frame's
alias table contains an entry for that name, the assigned value is written into
the binding frame and also into the frame directly below at the aliased name,
continuing one frame further down for each consecutive alias entry and stopping
at the first frame whose table has no entry for the current name (the `APath`
positions are exactly the frame/name pairs of that descent, and the frames
below the stop frame are untouched); in particular, running the statements of
`a=1; func f(ref b){ b = 2; } f(a);` from the initial state leaves `a` bound
to 2 in the outermost frame after the call. -/
theorem c1_assignment_write_cascade (scopes : List Frame) (aliases : List AFrame)
    (name : String) (v : Val) (i r : Nat) (nr : String)
    (hfind : findClosest scopes name = some i)
    (hch : Chain aliases i name r nr) :
    (∀ j y, APath aliases i name j y →
        lookAt (doAssignVar scopes aliases name v) j y = some v)
    ∧ (∀ j, j < r → scGet (doAssignVar scopes aliases name v) j = scGet scopes j)
    ∧ ((interp [⟨"f", [("b", true)], [Stmt.sassign "b" (Expr.elitInt 2)]⟩,
            ⟨"main", [], [Stmt.sassign "a" (Expr.elitInt 1),
              Stmt.scall "f" [Expr.evar "a"]]⟩] 9).runBody
          ⟨[[]], [[]], [], []⟩
          [Stmt.sassign "a" (Expr.elitInt 1), Stmt.scall "f" [Expr.evar "a"]]
        = .ok (none, ⟨[[("a", Val.vint 2)]], [[]], [], []⟩)
      ∧ lookAt [[("a", Val.vint 2)]] 0 "a" = some (Val.vint 2)) := by
  have hilen : i < scopes.length := findClosest_lt_length _ _ _ hfind
  refine ⟨?_, ?_, by rfl, by rfl⟩
  · intro j y hp
    simp only [doAssignVar, hfind]
    exact cascadeAssign_chain aliases v i name r nr (setAt scopes i name v) hch
      (by rw [setAt_length]; exact hilen) (lookAt_setAt_self _ _ _ _ hilen) j y hp
  · intro j hj
    simp only [doAssignVar, hfind]
    rw [cascadeAssign_preserve_scGet_lt aliases v i name r nr _ hch j hj]
    have hrle : r ≤ i := apath_le hch.1
    simp only [setAt]
    exact scGet_set_ne _ _ _ _ (by omega)

/-- Witness for C1 at a concrete input: `b` in frame 1 aliases `a` in frame 0;
assigning 7 to `b` cascades the value down into `a`. -/
theorem c1_assignment_write_cascade_witness :
    lookAt (doAssignVar [[("a", Val.vint 1)], [("b", Val.vint 9)]] [[], [("b", "a")]]
      "b" (Val.vint 7)) 0 "a" = some (Val.vint 7) :=
  (c1_assignment_write_cascade [[("a", Val.vint 1)], [("b", Val.vint 9)]]
    [[], [("b", "a")]] "b" (Val.vint 7) 1 0 "a" rfl
    ⟨APath.step 0 "b" "a" 0 "a" rfl (APath.refl 0 "a"), rfl⟩).1 0 "a"
    (APath.step 0 "b" "a" 0 "a" rfl (APath.refl 0 "a"))

/-- C2: reading a variable that has an entry in its frame's alias table
returns the current value of the root of its alias chain, and refreshes the
binding of every frame/name pair that directly or transitively aliases that
root through consecutive frames, so that after a write through any link of the
chain a read through any other alias of the same root yields the most recent
value. -/
theorem c2_read_cascade_sync (scopes : List Frame) (aliases : List AFrame)
    (name : String) (i r : Nat) (nr : String) (v : Val)
    (hwf : AliasWF aliases)
    (hfind : findClosest scopes name = some i)
    (hch : Chain aliases i name r nr)
    (hri : r < i)
    (hroot : lookAt scopes r nr = some v) :
    ∃ scopes2, readVar scopes aliases name = Except.ok (v, scopes2) ∧
      ∀ j y, Chain aliases j y r nr → j < scopes.length → lookAt scopes2 j y = some v :=
  readVar_alias_sync scopes aliases name i r nr v hwf hfind hch hri hroot

/-- Witness for C2 at a concrete input: the root `a` was most recently written
(through the outer side of the chain) to 5 while the inner alias `b` still
holds the stale 1; reading `b` yields 5 and refreshes the chain. -/
theorem c2_read_cascade_sync_witness :
    ∃ scopes2,
      readVar [[("a", Val.vint 5)], [("b", Val.vint 1)]] [[], [("b", "a")]] "b"
        = Except.ok (Val.vint 5, scopes2) ∧
      ∀ j y, Chain [[], [("b", "a")]] j y 0 "a" →
        j < ([[("a", Val.vint 5)], [("b", Val.vint 1)]] : List Frame).length →
        lookAt scopes2 j y = some (Val.vint 5) :=
  c2_read_cascade_sync [[("a", Val.vint 5)], [("b", Val.vint 1)]] [[], [("b", "a")]]
    "b" 1 0 "a" (Val.vint 5)
    (by
      intro af haf
      rcases List.mem_cons.mp haf with rfl | h2
      · simp
      · rcases List.mem_cons.mp h2 with rfl | h3
        · simp
        · simp at h3)
    rfl
    ⟨APath.step 0 "b" "a" 0 "a" rfl (APath.refl 0 "a"), rfl⟩
    (by omega) rfl

/-- C6 counterexample: the lambda created while the Object variable `o` is in
scope does not capture `o` (first conjunct, as the claim says), but a
reference to `o` inside the lambda's body does NOT fail with NAME_ERROR while
`o` is still on the call stack: the dynamic-scoping fallback of the variable
lookup finds the outer binding and returns the Object (second conjunct). -/
theorem c6_lambda_object_fallback_counterexample :
    flookup (captureVars [[("o", Val.vobj [])]] []) "o" = none
    ∧ evalVarRead [] (some ⟨[], [], captureVars [[("o", Val.vobj [])]] []⟩)
        [[("o", Val.vobj [])]] [[]] "o"
        = .ok (Val.vobj [], [[("o", Val.vobj [])]])
    ∧ (Except.ok (Val.vobj [], [[("o", Val.vobj [])]]) :
        Except Err (Val × List Frame)) ≠ .error Err.nameError :=
  ⟨rfl, rfl, fun h => Except.noConfusion h⟩

/-- C6 (amended): a lambda created while an Object variable `o` is in scope
(`o` not among its formal parameters, and no frame binding `o` to a capturable
value) does not capture `o`; a reference to `o` inside the lambda's body then
fails with NAME_ERROR exactly in the states where no call-stack frame binds
`o` any more — when some frame still binds it, the dynamic-scoping fallback
returns that binding instead of failing. -/
theorem c6_lambda_object_capture_amended
    (scopes : List Frame) (params : List String) (o : String) (funcs : List FuncDef)
    (prs : List (String × Bool)) (body : List Stmt)
    (hwf : ScopesWF scopes)
    (hp : params.contains o = false)
    (hobj : firstCapturable scopes o = none)
    (hfun : funcs.filter (fun f => f.name == o) = [])
    (hdot : containsChar o '.' = false) :
    flookup (captureVars scopes params) o = none
    ∧ ∀ scopes3 aliases3, findClosest scopes3 o = none →
        evalVarRead funcs (some ⟨prs, body, captureVars scopes params⟩)
          scopes3 aliases3 o = .error Err.nameError := by
  have hcap : flookup (captureVars scopes params) o = none := by
    rw [captureVars_lookup scopes params o hwf,
      if_neg (fun hh => Bool.noConfusion (hp.symm.trans hh)), hobj]
  refine ⟨hcap, ?_⟩
  intro scopes3 aliases3 hmiss
  have hsearch : capturedSearch (captureVars scopes params) o = none :=
    capturedSearch_eq_none (captureVars_entries scopes params) hcap
  simp only [evalVarRead, hsearch]
  simp only [evalVarCore, hfun, List.length_nil]
  rw [if_neg (by omega), if_neg (by omega),
    if_neg (fun hh => Bool.noConfusion (hdot.symm.trans hh))]
  simp only [readVar, hmiss]

/-- Witness for C6 (amended) at a concrete input: the snapshot of a lambda
built while `o` held an Object is empty, and evaluating `o` in the lambda body
after `o`'s frame is gone is NAME_ERROR. -/
theorem c6_lambda_object_capture_amended_witness :
    evalVarRead [] (some ⟨[], [], captureVars [[("o", Val.vobj [])]] []⟩) [] [] "o"
      = .error Err.nameError :=
  (c6_lambda_object_capture_amended [[("o", Val.vobj [])]] [] "o" [] [] []
    (by
      intro fr hfr
      rcases List.mem_cons.mp hfr with rfl | h2
      · simp
      · simp at h2)
    rfl rfl rfl rfl).2 [] [] rfl

/-- C7: an `inputi` call takes at most one argument: two or more arguments are
NAME_ERROR (before anything is evaluated); with one argument the prompt is
evaluated and its rendering emitted to the output sink before reading; the
next input token is then parsed as the (non-negative) integer it spells when
it is all digits, and is TYPE_ERROR otherwise — in particular a token with a
minus sign is not all digits and therefore TYPE_ERROR. -/
theorem c7_inputi_spec (evalE : St → Expr → Except Err (Val × St)) (st : St) :
    (∀ a b rest, inputiCase evalE st (a :: b :: rest) = .error Err.nameError)
    ∧ (∀ a v st1, evalE st a = .ok (v, st1) →
        inputiCase evalE st [a]
          = inputiRead { st1 with outputs := st1.outputs ++ [getPrintable v] })
    ∧ (inputiCase evalE st [] = inputiRead st)
    ∧ (∀ (st2 : St) tok rest, st2.inputs = tok :: rest →
        (isAllDigits tok = true →
          inputiRead st2 = .ok (Val.vint (Int.ofNat (digitsToNat tok)),
            { st2 with inputs := rest }))
        ∧ (isAllDigits tok = false → inputiRead st2 = .error Err.typeError)) := by
  refine ⟨?_, ?_, rfl, ?_⟩
  · intro a b rest
    rfl
  · intro a v st1 h
    simp only [inputiCase, h]
  · intro st2 tok rest h
    constructor
    · intro hd
      simp only [inputiRead, h]
      rw [if_pos hd]
    · intro hd
      simp only [inputiRead, h]
      rw [if_neg (fun hh => Bool.noConfusion (hd.symm.trans hh))]

/-- Witness for C7 at a concrete input: one prompt argument is printed before
reading, and the all-digits token 42 parses to the Int 42. -/
theorem c7_inputi_spec_witness :
    inputiCase ((interp [] 1).evalE) ⟨[[]], [[]], ["42"], []⟩ [Expr.elitStr "p"]
      = .ok (Val.vint 42, ⟨[[]], [[]], [], ["p"]⟩) := by
  have h := (c7_inputi_spec ((interp [] 1).evalE) ⟨[[]], [[]], ["42"], []⟩).2.1
    (Expr.elitStr "p") (Val.vstr "p") ⟨[[]], [[]], ["42"], []⟩ rfl
  rw [h]
  rfl

/-- Witness for C8 at a concrete input: 7 divided by 0. -/
theorem c8_div_by_zero_unguarded_witness :
    evalBinop BinOp.div (Val.vint 7) (Val.vint 0) = .error Err.hostError :=
  (c8_div_by_zero_unguarded 7 true).1

/-- Witness for C10 at a concrete input: `print(7, "hi")` emits the single
line `7hi` and produces Nil. -/
theorem c10_print_spec_witness :
    (interp [] (1 + 1)).doCall ⟨[[]], [[]], [], []⟩ "print"
        [Expr.elitInt 7, Expr.elitStr "hi"]
      = .ok (Val.vnil, ⟨[[]], [[]], [], ["7hi"]⟩) := by
  rw [c10_print_spec]
  rfl
